/-
  Verification development for the PySpike spike-train distance library.

  Shallow embedding of the core data model and operations:
  spike trains, piecewise-constant/linear profiles, the ISI- and
  SPIKE-distance merge algorithms, SPIKE-synchronization, and the
  multivariate/matrix combinators from pyspike/spike_distance.py.

  Times and values are modelled as rationals (exact arithmetic); the
  floating-point code of the library computes the same field expressions.
-/
import Mathlib

/-- A spike train: an ordered sequence of event times together with its
observation interval.  After construction the sequence carries auxiliary
boundary spikes at `t_start` and `t_end` (see `add_auxiliary_spikes`). -/
structure SpikeTrain where
  spikes : List ℚ
  t_start : ℚ
  t_end : ℚ
  deriving DecidableEq, Repr

instance : Inhabited SpikeTrain := ⟨⟨[], 0, 1⟩⟩

/-- Inserts boundary markers at `t_start`/`t_end` if absent (idempotent),
as the SpikeTrain constructor does. -/
def add_auxiliary_spikes (times : List ℚ) (t0 t1 : ℚ) : List ℚ :=
  let a := if times.head? = some t0 then times else t0 :: times
  if a.getLast? = some t1 then a else a ++ [t1]

/-- Constructs a spike train from raw spike times and an interval,
inserting the auxiliary boundary spikes. -/
def mkSpikeTrain (times : List ℚ) (t0 t1 : ℚ) : SpikeTrain :=
  ⟨add_auxiliary_spikes times t0 t1, t0, t1⟩

/-- The SpikeTrain invariant: strictly increasing spike times whose first
element is `t_start` and last element is `t_end` (auxiliary spikes
present), over a non-empty interval. -/
def SpikeTrain.Valid (st : SpikeTrain) : Prop :=
  st.spikes.Chain' (· < ·) ∧ st.spikes.head? = some st.t_start ∧
    st.spikes.getLast? = some st.t_end ∧ st.t_start < st.t_end

/-- Executable decision procedure for strict sortedness (the library
instance for Chain' does not reduce by evaluation). -/
instance decSortedLt : (l : List ℚ) → Decidable (List.Chain' (· < ·) l)
  | [] => isTrue List.chain'_nil
  | [a] => isTrue (List.chain'_singleton a)
  | a :: b :: l =>
    match inferInstanceAs (Decidable (a < b)), decSortedLt (b :: l) with
    | isTrue h1, isTrue h2 => isTrue (List.chain'_cons.mpr ⟨h1, h2⟩)
    | isFalse h1, _ => isFalse (fun hc => h1 (List.chain'_cons.mp hc).1)
    | _, isFalse h2 => isFalse (fun hc => h2 (List.chain'_cons.mp hc).2)

instance (st : SpikeTrain) : Decidable st.Valid := by
  unfold SpikeTrain.Valid; infer_instance

/- ------------------------------------------------------------------
   Merge grid: sorted, deduplicated union of two trains' spike times.
   ------------------------------------------------------------------ -/

/-- Inserts a time into a sorted list of times, keeping it sorted and
dropping the insertion when the time is already present. -/
def insertGrid (t : ℚ) : List ℚ → List ℚ
  | [] => [t]
  | s :: rest =>
    if t < s then t :: s :: rest
    else if t = s then s :: rest
    else s :: insertGrid t rest

/-- The combined breakpoint grid of two (auxiliary-spike-augmented) spike
sequences: the pooled, deduplicated, sorted union of both. -/
def unionGrid (a b : List ℚ) : List ℚ :=
  a.foldr insertGrid (b.foldr insertGrid [])

/- ------------------------------------------------------------------
   Piecewise-constant profiles (ISI-distance).
   ------------------------------------------------------------------ -/

/-- The list of adjacent breakpoint pairs (the segments) of a grid. -/
def adjPairs : List ℚ → List (ℚ × ℚ)
  | u :: v :: rest => (u, v) :: adjPairs (v :: rest)
  | _ => []

/-- A piecewise-constant function of time: breakpoints `x` and one value
per segment, as returned by the ISI-distance computation. -/
structure PieceWiseConstFunc where
  x : List ℚ
  y : List ℚ
  deriving DecidableEq, Repr

/-- Width-weighted sum of per-segment values over a breakpoint grid. -/
def pcSum : List ℚ → List ℚ → ℚ
  | u :: v :: xs, a :: as => (v - u) * a + pcSum (v :: xs) as
  | _, _ => 0

/-- Modelled from the spec: `PieceWiseConstFunc.avrg` (pyspike/function.py,
absent from src/).  Time average over the full support: the
breakpoint-width-weighted mean of the segment values. -/
def PieceWiseConstFunc.avrg (f : PieceWiseConstFunc) : ℚ :=
  pcSum f.x f.y / (f.x.getLast?.getD 0 - f.x.head?.getD 0)

/- ------------------------------------------------------------------
   ISI-distance backend.

   Modelled from the spec: the ISI merge algorithm
   (cython_distance.isi_distance_cython / python_backend.isi_distance_python)
   is not under src/; §4.2 of the spec defines it.  At each point in time
   each train has a current ISI, the gap between its most recent spike and
   its next spike; the profile value on a segment is
   |isi1 - isi2| / max(isi1, isi2), defined as 0 when both ISIs are 0.
   ------------------------------------------------------------------ -/

/-- The last spike at or before `t` (defaults to `t` when none exists). -/
def lastLE (l : List ℚ) (t : ℚ) : ℚ :=
  ((l.filter (fun s => decide (s ≤ t))).getLast?).getD t

/-- The first spike strictly after `t` (defaults to `t` when none exists). -/
def firstGT (l : List ℚ) (t : ℚ) : ℚ :=
  (l.find? (fun s => decide (t < s))).getD t

/-- The current inter-spike interval of a train at time `t`: the gap
between the most recent spike and the next spike. -/
def currISI (l : List ℚ) (t : ℚ) : ℚ := firstGT l t - lastLE l t

/-- The ISI-distance value of a segment from the two current ISIs,
guarded against division by zero: 0 when both ISIs are 0. -/
def isiValue (a b : ℚ) : ℚ :=
  if max a b = 0 then 0 else |a - b| / max a b

/-- Modelled from the spec: the ISI-distance profile of two
auxiliary-spike-augmented spike sequences (the backend function absent
from src/).  One constant value per segment of the merged grid. -/
def isi_distance_impl (s1 s2 : List ℚ) : PieceWiseConstFunc :=
  let x := unionGrid s1 s2
  ⟨x, (adjPairs x).map (fun p => isiValue (currISI s1 p.1) (currISI s2 p.1))⟩

/-- Error kinds of the public API (spec §7): interval mismatch between the
two trains of a pairwise computation, and degenerate multivariate input. -/
inductive PySpikeError where
  | invalidInput
  | degenerateInput
  deriving DecidableEq, Repr

/-- Modelled from the spec: `isi_profile` (module isi_distance absent from
src/) checks at entry that the trains share an interval, then runs the
merge backend. -/
def isi_profile (a b : SpikeTrain) : Except PySpikeError PieceWiseConstFunc :=
  if a.t_start = b.t_start then
    if a.t_end = b.t_end then
      .ok (isi_distance_impl a.spikes b.spikes)
    else .error .invalidInput
  else .error .invalidInput

/- ------------------------------------------------------------------
   Piecewise-linear profiles (SPIKE-distance).
   ------------------------------------------------------------------ -/

/-- A piecewise-linear function of time: breakpoints `x` and, for each of
the `len x - 1` segments, a start value `y1` and an end value `y2`. -/
structure PieceWiseLinFunc where
  x : List ℚ
  y1 : List ℚ
  y2 : List ℚ
  deriving DecidableEq, Repr

/-- Evaluation helper: walks the grid to the segment whose selection time
`s` lies in it (clamping to the last segment) and evaluates the linear
interpolation of that segment at time `t`. -/
def segEndAux : List ℚ → List ℚ → List ℚ → ℚ → ℚ → ℚ
  | u :: v :: w :: xs, a :: as, b :: bs, s, t =>
    if s < v then a + (b - a) * (t - u) / (v - u)
    else segEndAux (v :: w :: xs) as bs s t
  | [u, v], [a], [b], _, t => a + (b - a) * (t - u) / (v - u)
  | _, _, _, _, _ => 0

/-- The value of the linear segment containing time `s`, evaluated at `t`. -/
def PieceWiseLinFunc.segEnd (f : PieceWiseLinFunc) (s t : ℚ) : ℚ :=
  segEndAux f.x f.y1 f.y2 s t

/-- Pointwise evaluation of a piecewise-linear profile (right-continuous;
the last breakpoint takes the final segment's end value). -/
def PieceWiseLinFunc.valueAt (f : PieceWiseLinFunc) (t : ℚ) : ℚ :=
  f.segEnd t t

/-- Modelled from the spec: `mul_scalar` (pyspike/function.py, absent from
src/) scales a profile's values in place by a factor. -/
def PieceWiseLinFunc.mul_scalar (f : PieceWiseLinFunc) (c : ℚ) : PieceWiseLinFunc :=
  ⟨f.x, f.y1.map (fun y => c * y), f.y2.map (fun y => c * y)⟩

/-- Modelled from the spec: `PieceWiseLinFunc.add` (pyspike/function.py,
absent from src/): the pointwise sum of two piecewise-linear profiles over
the union of their grids, re-breaking segments as needed (spec section 3). -/
def PieceWiseLinFunc.add (f g : PieceWiseLinFunc) : PieceWiseLinFunc :=
  let u := unionGrid f.x g.x
  ⟨u, (adjPairs u).map (fun p => f.valueAt p.1 + g.valueAt p.1),
      (adjPairs u).map (fun p => f.segEnd p.1 p.2 + g.segEnd p.1 p.2)⟩

/-- Trapezoidal sum of a piecewise-linear profile: mean of the two segment
endpoint values times segment width, summed over all segments. -/
def trapzSum : List ℚ → List ℚ → List ℚ → ℚ
  | u :: v :: xs, a :: as, b :: bs => (v - u) * (a + b) / 2 + trapzSum (v :: xs) as bs
  | _, _, _ => 0

/-- Integral of one linear segment `(u,v,a,b)` clipped to `[lo,hi]`. -/
def segClip (u v a b lo hi : ℚ) : ℚ :=
  if lo < hi then
    ((a + (b - a) * (lo - u) / (v - u)) + (a + (b - a) * (hi - u) / (v - u))) / 2 * (hi - lo)
  else 0

/-- Integral of a piecewise-linear profile restricted to `[a,b]`, clipping
each segment to the integration bounds. -/
def clipAux : List ℚ → List ℚ → List ℚ → ℚ → ℚ → ℚ
  | u :: v :: xs, c :: cs, d :: ds, a, b =>
    segClip u v c d (max u a) (min v b) + clipAux (v :: xs) cs ds a b
  | _, _, _, _, _ => 0

/-- Integral of a profile over the sub-interval `[a,b]` (clipped to
segment boundaries). -/
def PieceWiseLinFunc.integralClip (f : PieceWiseLinFunc) (a b : ℚ) : ℚ :=
  clipAux f.x f.y1 f.y2 a b

/-- Modelled from the spec: `PieceWiseLinFunc.avrg` (pyspike/function.py,
absent from src/).  With no interval argument, the trapezoidal integral
over the whole support divided by the total duration; with an explicit
interval, the integration is restricted to it. -/
def PieceWiseLinFunc.avrg (f : PieceWiseLinFunc) (interval : Option (ℚ × ℚ)) : ℚ :=
  match interval with
  | none =>
    let a := f.x.head?.getD 0
    let b := f.x.getLast?.getD 0
    f.integralClip a b / (b - a)
  | some (a, b) => f.integralClip a b / (b - a)

/- ------------------------------------------------------------------
   SPIKE-distance backend.

   Modelled from the spec: the SPIKE merge algorithm
   (cython_distance.spike_distance_cython / python_backend.spike_distance_python)
   is not under src/; §4.3 of the spec defines it.  For every spike, its
   distance to the nearest spike of the other train; within a segment the
   two per-train terms s1, s2 interpolate linearly between the distances
   at the local predecessor and successor spikes; the segment value is
   (s1*isi2 + s2*isi1) / (0.5*(isi1+isi2)^2), evaluated at both segment
   endpoints.  Edge corrections (validated against the reference test
   values): the local ISI of a train's first/last inter-spike window is
   the maximum of the two outermost windows; the auxiliary end spike
   inherits the distance of the last real spike; the profile value at
   exactly t_start weights the following spike's distance in full.
   ------------------------------------------------------------------ -/

/-- Distance from time `t` to the nearest spike of the list. -/
def minDistTo (l : List ℚ) (t : ℚ) : ℚ :=
  match l.map (fun s => |t - s|) with
  | [] => 0
  | d :: ds => ds.foldl min d

/-- The (edge-corrected) local ISI of the train `tr` for the inter-spike
window `[P, F]`: the first and last windows take the maximum of the two
outermost windows, interior windows their plain width. -/
def corrISI (tr : List ℚ) (P F : ℚ) : ℚ :=
  if tr.head? = some P then
    match tr with
    | t0 :: t1 :: t2 :: _ => max (t1 - t0) (t2 - t1)
    | _ => F - P
  else if tr.getLast? = some F then
    match tr.reverse with
    | a :: b :: c :: _ => max (a - b) (b - c)
    | _ => F - P
  else F - P

/-- The per-train SPIKE term `s` of train `own` against train `other`, on
the merged-grid segment starting at `u`, evaluated at grid time `t`
(over the observation interval `[t0, t1]`). -/
def sVal (own other : List ℚ) (t0 t1 u t : ℚ) : ℚ :=
  let P := lastLE own u
  let F := firstGT own u
  let isi := corrISI own P F
  let dP := minDistTo other P
  let dF := if own.getLast? = some F then dP else minDistTo other F
  if t = t0 then dF * (F - P) / isi
  else if t = t1 then dP * (F - P) / isi
  else if t ∈ own then minDistTo other t
  else (dP * (F - t) + dF * (t - P)) / isi

/-- The SPIKE-distance profile value of the segment starting at `u`,
evaluated at grid time `t`: both trains' `s` terms and local ISIs
combined by (s1*isi2 + s2*isi1) / (0.5*(isi1+isi2)^2). -/
def segVal (s1 s2 : List ℚ) (t0 t1 u t : ℚ) : ℚ :=
  let i1 := corrISI s1 (lastLE s1 u) (firstGT s1 u)
  let i2 := corrISI s2 (lastLE s2 u) (firstGT s2 u)
  (sVal s1 s2 t0 t1 u t * i2 + sVal s2 s1 t0 t1 u t * i1) / ((i1 + i2) ^ 2 / 2)

/-- Modelled from the spec: the SPIKE-distance profile of two
auxiliary-spike-augmented spike sequences over `[t0, t1]` (the backend
function absent from src/): for each segment of the merged grid, a start
and an end value of the piecewise-linear profile. -/
def spike_distance_impl (s1 s2 : List ℚ) (t0 t1 : ℚ) : PieceWiseLinFunc :=
  let x := unionGrid s1 s2
  ⟨x, (adjPairs x).map (fun p => segVal s1 s2 t0 t1 p.1 p.1),
      (adjPairs x).map (fun p => segVal s1 s2 t0 t1 p.1 p.2)⟩

/- ------------------------------------------------------------------
   Public pairwise API (pyspike/spike_distance.py).
   ------------------------------------------------------------------ -/

/-- `spike_profile` (spike_distance.py): checks at entry that the two
trains are defined for the same interval, then runs the merge backend and
wraps the result as a PieceWiseLinFunc. -/
def spike_profile (a b : SpikeTrain) : Except PySpikeError PieceWiseLinFunc :=
  if a.t_start = b.t_start then
    if a.t_end = b.t_end then
      .ok (spike_distance_impl a.spikes b.spikes a.t_start a.t_end)
    else .error .invalidInput
  else .error .invalidInput

/-- `spike_distance` (spike_distance.py): the time average of the
spike-distance profile over the given interval. -/
def spike_distance (a b : SpikeTrain) (interval : Option (ℚ × ℚ)) :
    Except PySpikeError ℚ :=
  (spike_profile a b).map (fun f => f.avrg interval)

/-- `isi_distance`: the time average of the ISI-distance profile. -/
def isi_distance (a b : SpikeTrain) : Except PySpikeError ℚ :=
  (isi_profile a b).map (fun f => f.avrg)

/- ------------------------------------------------------------------
   SPIKE-synchronization (spec §4.4).

   Modelled from the spec: the coincidence detector (module absent from
   src/).  A spike is coincident when the other train has a spike within
   the adaptive window: half the minimum of the four neighbouring
   inter-spike intervals, capped by an explicit positive `max_tau` when
   supplied; a non-positive `max_tau` degenerates to an always-false
   coincidence.  The bivariate value is the number of coincident spikes
   divided by the total number of (real) spikes of both trains.
   ------------------------------------------------------------------ -/

/-- The last spike strictly before `t` (defaults to `t` when none). -/
def lastLT (l : List ℚ) (t : ℚ) : ℚ :=
  ((l.filter (fun s => decide (s < t))).getLast?).getD t

/-- Gap from the previous spike of the (augmented) train to `t`. -/
def prevGap (l : List ℚ) (t : ℚ) : ℚ := t - lastLT l t

/-- Gap from `t` to the next spike of the (augmented) train. -/
def nextGap (l : List ℚ) (t : ℚ) : ℚ := firstGT l t - t

/-- The adaptive coincidence window for a spike pair: half the minimum of
the four neighbouring inter-spike intervals. -/
def adaptiveTau (own other : List ℚ) (t u : ℚ) : ℚ :=
  min (min (prevGap own t) (nextGap own t)) (min (prevGap other u) (nextGap other u)) / 2

/-- The real (non-auxiliary) spikes of an augmented spike sequence. -/
def realSpikes (l : List ℚ) : List ℚ := (l.drop 1).dropLast

/-- Whether the spike at `t` of train `own` has a coincident partner in
train `other`, under the adaptive window capped by `max_tau`. -/
def coincident (own other : List ℚ) (t : ℚ) (max_tau : Option ℚ) : Bool :=
  (realSpikes other).any (fun u =>
    decide (|t - u| < match max_tau with
      | none => adaptiveTau own other t u
      | some m => if m ≤ 0 then 0 else min (adaptiveTau own other t u) m))

/-- Modelled from the spec: `spike_sync` of two auxiliary-spike-augmented
spike sequences: coincident spike count over total spike count. -/
def spike_sync (s1 s2 : List ℚ) (max_tau : Option ℚ) : ℚ :=
  let c1 := ((realSpikes s1).filter (fun t => coincident s1 s2 t max_tau)).length
  let c2 := ((realSpikes s2).filter (fun t => coincident s2 s1 t max_tau)).length
  ((c1 : ℚ) + (c2 : ℚ)) / ((realSpikes s1).length + (realSpikes s2).length)

/- ------------------------------------------------------------------
   Multivariate combinators (pyspike/generic.py, absent from src/,
   modelled from spec §4.5/§4.6) and their spike_distance.py callers.
   ------------------------------------------------------------------ -/

/-- All unordered pairs of a list, in enumeration order. -/
def allPairs {α : Type} : List α → List (α × α)
  | [] => []
  | a :: rest => rest.map (fun b => (a, b)) ++ allPairs rest

/-- Accumulates the pairwise profiles of a list of train pairs: the first
pair's profile, then `add` of each further pair's profile in turn.
An empty pair list is degenerate input (fewer than 2 trains). -/
def runPairs (f : SpikeTrain → SpikeTrain → Except PySpikeError PieceWiseLinFunc) :
    List (SpikeTrain × SpikeTrain) → Except PySpikeError PieceWiseLinFunc
  | [] => .error .degenerateInput
  | p :: ps => do
    let first ← f p.1 p.2
    ps.foldlM (fun acc q => do
      let c ← f q.1 q.2
      return acc.add c) first

/-- Modelled from the spec: `_generic_profile_multi` (pyspike/generic.py,
absent from src/).  Resolves the index subset (all trains when none),
validates it, builds all unordered index pairs, computes the pairwise
profile for each and accumulates via `add`; returns the accumulated
profile together with the number of pairs. -/
def _generic_profile_multi (spike_trains : List SpikeTrain)
    (pair_distance_func : SpikeTrain → SpikeTrain → Except PySpikeError PieceWiseLinFunc)
    (indices : Option (List ℕ)) :
    Except PySpikeError (PieceWiseLinFunc × ℕ) :=
  let idx := match indices with
    | none => List.range spike_trains.length
    | some l => l
  if idx.all (fun i => decide (i < spike_trains.length)) then
    (runPairs pair_distance_func
        ((allPairs idx).map (fun q =>
          (spike_trains.getD q.1 default, spike_trains.getD q.2 default)))).map
      (fun p => (p, (allPairs idx).length))
  else .error .degenerateInput

/-- `spike_profile_multi` (spike_distance.py): the accumulated pairwise
profile normalized by `mul_scalar (1/M)` where `M` is the pair count. -/
def spike_profile_multi (spike_trains : List SpikeTrain)
    (indices : Option (List ℕ)) : Except PySpikeError PieceWiseLinFunc := do
  let r ← _generic_profile_multi spike_trains spike_profile indices
  return r.1.mul_scalar (1 / (r.2 : ℚ))

/-- `spike_distance_multi` (spike_distance.py): the time average of the
multivariate spike profile. -/
def spike_distance_multi (spike_trains : List SpikeTrain)
    (indices : Option (List ℕ)) (interval : Option (ℚ × ℚ)) :
    Except PySpikeError ℚ :=
  (spike_profile_multi spike_trains indices).map (fun f => f.avrg interval)

/-- Modelled from the spec: `_generic_distance_matrix` (pyspike/generic.py,
absent from src/).  Builds a k x k matrix: the diagonal is fixed at 0
without invoking the pairwise function, only the upper triangle is
computed and the lower triangle mirrors it (entry (i,j) with i > j
reuses the upper-triangle expression). -/
def _generic_distance_matrix (spike_trains : List SpikeTrain)
    (dist_func : SpikeTrain → SpikeTrain → Option (ℚ × ℚ) → Except PySpikeError ℚ)
    (indices : Option (List ℕ)) (interval : Option (ℚ × ℚ)) :
    Except PySpikeError (List (List ℚ)) :=
  let idx := match indices with
    | none => List.range spike_trains.length
    | some l => l
  if idx.all (fun i => decide (i < spike_trains.length)) then
    if idx.length < 2 then .error .degenerateInput
    else
      (List.range idx.length).mapM (fun i =>
        (List.range idx.length).mapM (fun j =>
          if i = j then .ok 0
          else if i < j then
            dist_func (spike_trains.getD (idx.getD i 0) default)
              (spike_trains.getD (idx.getD j 0) default) interval
          else
            dist_func (spike_trains.getD (idx.getD j 0) default)
              (spike_trains.getD (idx.getD i 0) default) interval))
  else .error .degenerateInput

/-- `spike_distance_matrix` (spike_distance.py): the matrix of pairwise
time-averaged spike distances. -/
def spike_distance_matrix (spike_trains : List SpikeTrain)
    (indices : Option (List ℕ)) (interval : Option (ℚ × ℚ)) :
    Except PySpikeError (List (List ℚ)) :=
  _generic_distance_matrix spike_trains spike_distance indices interval

/-- The interior breakpoints of a grid (all but the first and last);
exactly the points tested by the segment-selection walk. -/
def innerPts : List ℚ → List ℚ
  | _ :: v :: w :: xs => v :: innerPts (v :: w :: xs)
  | _ => []

/-- Well-formedness of a piecewise-linear profile over `[a, e]`: strictly
sorted breakpoints spanning the interval, with one value pair per segment. -/
def PieceWiseLinFunc.WF (f : PieceWiseLinFunc) (a e : ℚ) : Prop :=
  f.x.Chain' (· < ·) ∧ f.x.head? = some a ∧ f.x.getLast? = some e ∧
    f.y1.length = f.x.length - 1 ∧ f.y2.length = f.x.length - 1 ∧ a < e

/- ------------------------------------------------------------------
   Concrete reference fixtures (test/test_distance.py).
   ------------------------------------------------------------------ -/

/-- First train of the reference ISI/SPIKE hand-computation. -/
def trainA : SpikeTrain := mkSpikeTrain [0.2, 0.4, 0.6, 0.7] 0 1

/-- Second train of the reference ISI/SPIKE hand-computation. -/
def trainB : SpikeTrain := mkSpikeTrain [0.3, 0.45, 0.8, 0.9, 0.95] 0 1

/-- First train of the equal-spike-times fixture. -/
def trainC : SpikeTrain := mkSpikeTrain [0.2, 0.4, 0.6] 0 1

/-- Second train of the equal-spike-times fixture. -/
def trainD : SpikeTrain := mkSpikeTrain [0.1, 0.4, 0.5, 0.6] 0 1

/-- The three-spike train of the synchronization fixture, over [0, 4]. -/
def syncA : List ℚ := add_auxiliary_spikes [1, 2, 3] 0 4

/-- A one-spike train of the synchronization fixture, over [0, 4]. -/
def syncB (t : ℚ) : List ℚ := add_auxiliary_spikes [t] 0 4

/- ------------------------------------------------------------------
   Lemmas about the merge grid.
   ------------------------------------------------------------------ -/

theorem mem_insertGrid {x t : ℚ} : ∀ {l : List ℚ},
    x ∈ insertGrid t l ↔ x = t ∨ x ∈ l := by
  intro l
  induction l with
  | nil => simp [insertGrid]
  | cons s rest ih =>
    by_cases h1 : t < s
    · simp [insertGrid, h1]
    · by_cases h2 : t = s
      · subst h2
        simp [insertGrid, h1]
      · simp [insertGrid, h1, h2, ih]
        tauto

theorem insertGrid_sorted {t : ℚ} : ∀ {l : List ℚ},
    l.Chain' (· < ·) → (insertGrid t l).Chain' (· < ·) := by
  intro l
  induction l with
  | nil => intro _; simp [insertGrid]
  | cons s rest ih =>
    intro hc
    rw [List.chain'_cons'] at hc
    by_cases h1 : t < s
    · rw [insertGrid]
      simp only [if_pos h1]
      rw [List.chain'_cons]
      exact ⟨h1, List.chain'_cons'.mpr hc⟩
    · by_cases h2 : t = s
      · rw [insertGrid]
        simp only [if_neg h1, if_pos h2]
        exact List.chain'_cons'.mpr hc
      · have hst : s < t := lt_of_le_of_ne (le_of_not_lt h1) (Ne.symm h2)
        rw [insertGrid]
        simp only [if_neg h1, if_neg h2]
        rw [List.chain'_cons']
        refine ⟨?_, ih hc.2⟩
        intro y hy
        rcases rest with _ | ⟨r, rs⟩
        · simp [insertGrid] at hy
          subst hy
          exact hst
        · rw [insertGrid] at hy
          by_cases h3 : t < r
          · simp only [if_pos h3, List.head?_cons, Option.mem_some_iff] at hy
            subst hy
            exact hst
          · by_cases h4 : t = r
            · simp only [if_neg h3, if_pos h4, List.head?_cons, Option.mem_some_iff] at hy
              subst hy
              exact hc.1 r rfl
            · simp only [if_neg h3, if_neg h4, List.head?_cons, Option.mem_some_iff] at hy
              subst hy
              exact hc.1 r rfl

theorem foldr_insertGrid_sorted {l : List ℚ} : ∀ {base : List ℚ},
    base.Chain' (· < ·) → (l.foldr insertGrid base).Chain' (· < ·) := by
  induction l with
  | nil => intro base h; exact h
  | cons a rest ih => intro base h; exact insertGrid_sorted (ih h)

theorem mem_foldr_insertGrid {x : ℚ} : ∀ {l base : List ℚ},
    x ∈ l.foldr insertGrid base ↔ x ∈ l ∨ x ∈ base := by
  intro l
  induction l with
  | nil => simp
  | cons a rest ih =>
    intro base
    simp [mem_insertGrid, ih]
    tauto

theorem unionGrid_sorted (a b : List ℚ) : (unionGrid a b).Chain' (· < ·) :=
  foldr_insertGrid_sorted (foldr_insertGrid_sorted List.chain'_nil)

theorem mem_unionGrid {x : ℚ} {a b : List ℚ} :
    x ∈ unionGrid a b ↔ x ∈ a ∨ x ∈ b := by
  unfold unionGrid
  simp [mem_foldr_insertGrid]

/-- Two strictly sorted lists with the same elements are equal. -/
theorem sorted_eq_of_mem_iff : ∀ {l m : List ℚ}, l.Chain' (· < ·) →
    m.Chain' (· < ·) → (∀ x, x ∈ l ↔ x ∈ m) → l = m := by
  intro l
  induction l with
  | nil =>
    intro m _ _ hmem
    cases m with
    | nil => rfl
    | cons b bs => exact absurd ((hmem b).mpr (List.mem_cons_self _ _)) (List.not_mem_nil _)
  | cons a as ih =>
    intro m hl hm hmem
    have hpl := List.chain'_iff_pairwise.mp hl
    cases m with
    | nil => exact absurd ((hmem a).mp (List.mem_cons_self _ _)) (List.not_mem_nil _)
    | cons b bs =>
      have hpm := List.chain'_iff_pairwise.mp hm
      have hab : a = b := by
        rcases List.mem_cons.mp ((hmem a).mp (List.mem_cons_self _ _)) with h | h
        · exact h
        · rcases List.mem_cons.mp ((hmem b).mpr (List.mem_cons_self _ _)) with h2 | h2
          · exact h2.symm
          · exact absurd (lt_trans ((List.pairwise_cons.mp hpm).1 a h)
              ((List.pairwise_cons.mp hpl).1 b h2)) (lt_irrefl b)
      subst hab
      have htail : ∀ x, x ∈ as ↔ x ∈ bs := by
        intro x
        constructor
        · intro hx
          rcases List.mem_cons.mp ((hmem x).mp (List.mem_cons_of_mem a hx)) with h | h
          · exact absurd ((List.pairwise_cons.mp hpl).1 x hx)
              (by rw [h]; exact lt_irrefl a)
          · exact h
        · intro hx
          rcases List.mem_cons.mp ((hmem x).mpr (List.mem_cons_of_mem a hx)) with h | h
          · exact absurd ((List.pairwise_cons.mp hpm).1 x hx)
              (by rw [h]; exact lt_irrefl a)
          · exact h
      exact congrArg (a :: ·) (ih hl.tail hm.tail htail)

theorem unionGrid_comm (a b : List ℚ) : unionGrid a b = unionGrid b a :=
  sorted_eq_of_mem_iff (unionGrid_sorted a b) (unionGrid_sorted b a)
    (fun x => by rw [mem_unionGrid, mem_unionGrid]; tauto)

/-- Every element of a strictly sorted list is at least the head. -/
theorem head_le_of_sorted {l : List ℚ} {a x : ℚ} (hl : l.Chain' (· < ·))
    (ha : l.head? = some a) (hx : x ∈ l) : a ≤ x := by
  cases l with
  | nil => cases hx
  | cons c cs =>
    have hac : c = a := by simpa using ha
    subst hac
    rcases List.mem_cons.mp hx with h | h
    · exact le_of_eq h.symm
    · exact le_of_lt ((List.pairwise_cons.mp (List.chain'_iff_pairwise.mp hl)).1 x h)

/-- Every element of a strictly sorted list is at most the last element. -/
theorem le_getLast_of_sorted : ∀ {l : List ℚ} {a x : ℚ}, l.Chain' (· < ·) →
    l.getLast? = some a → x ∈ l → x ≤ a := by
  intro l
  induction l with
  | nil => intro a x _ _ hx; cases hx
  | cons c cs ih =>
    intro a x hl ha hx
    cases cs with
    | nil =>
      simp at ha hx
      subst ha; subst hx; rfl
    | cons d ds =>
      rw [List.getLast?_cons_cons] at ha
      rcases List.mem_cons.mp hx with h | h
      · subst h
        have hd : d ≤ a := ih hl.tail ha (List.mem_cons_self _ _)
        exact le_of_lt (lt_of_lt_of_le (List.chain'_cons.mp hl).1 hd)
      · exact ih hl.tail ha h

/-- A strictly sorted list whose member `a` is a lower bound has head `a`. -/
theorem head_eq_of_min {l : List ℚ} {a : ℚ} (hl : l.Chain' (· < ·))
    (hmem : a ∈ l) (hmin : ∀ x ∈ l, a ≤ x) : l.head? = some a := by
  cases l with
  | nil => cases hmem
  | cons c cs =>
    have h1 : a ≤ c := hmin c (List.mem_cons_self _ _)
    have h2 : c ≤ a := head_le_of_sorted hl rfl hmem
    simp [le_antisymm h2 h1]

/-- The optional last element, when present, is a member. -/
theorem mem_of_getLast?_eq : ∀ {l : List ℚ} {a : ℚ}, l.getLast? = some a → a ∈ l := by
  intro l
  induction l with
  | nil => intro a h; cases h
  | cons c cs ih =>
    intro a h
    cases cs with
    | nil => simp at h; simp [h]
    | cons d ds =>
      rw [List.getLast?_cons_cons] at h
      exact List.mem_cons_of_mem c (ih h)

/-- A strictly sorted list whose member `a` is an upper bound ends in `a`. -/
theorem getLast_eq_of_max {l : List ℚ} {a : ℚ} (hl : l.Chain' (· < ·))
    (hmem : a ∈ l) (hmax : ∀ x ∈ l, x ≤ a) : l.getLast? = some a := by
  cases hle : l.getLast? with
  | none =>
    rw [List.getLast?_eq_none_iff] at hle
    subst hle; cases hmem
  | some c =>
    have h1 : a ≤ c := le_getLast_of_sorted hl hle hmem
    have h2 : c ≤ a := hmax c (mem_of_getLast?_eq hle)
    rw [le_antisymm h2 h1]

/-- The optional head, when present, is a member. -/
theorem mem_of_head?_eq {l : List ℚ} {a : ℚ} (h : l.head? = some a) : a ∈ l := by
  cases l with
  | nil => cases h
  | cons c cs =>
    simp at h
    simp [h]

/-- The merged grid of two valid trains over a shared interval is a
strictly increasing sequence from `t_start` to `t_end`. -/
theorem unionGrid_span {st1 st2 : SpikeTrain} (h1 : st1.Valid) (h2 : st2.Valid)
    (hs : st1.t_start = st2.t_start) (he : st1.t_end = st2.t_end) :
    (unionGrid st1.spikes st2.spikes).Chain' (· < ·) ∧
    (unionGrid st1.spikes st2.spikes).head? = some st1.t_start ∧
    (unionGrid st1.spikes st2.spikes).getLast? = some st1.t_end := by
  obtain ⟨hc1, hh1, hl1, hi1⟩ := h1
  obtain ⟨hc2, hh2, hl2, _⟩ := h2
  refine ⟨unionGrid_sorted _ _, ?_, ?_⟩
  · apply head_eq_of_min (unionGrid_sorted _ _)
    · exact mem_unionGrid.mpr (Or.inl (mem_of_head?_eq hh1))
    · intro x hx
      rcases mem_unionGrid.mp hx with h | h
      · exact head_le_of_sorted hc1 hh1 h
      · rw [hs]
        exact head_le_of_sorted hc2 hh2 h
  · apply getLast_eq_of_max (unionGrid_sorted _ _)
    · exact mem_unionGrid.mpr (Or.inl (mem_of_getLast?_eq hl1))
    · intro x hx
      rcases mem_unionGrid.mp hx with h | h
      · exact le_getLast_of_sorted hc1 hl1 h
      · rw [he]
        exact le_getLast_of_sorted hc2 hl2 h

/-- A list whose head and last element differ has at least two elements. -/
theorem two_le_length_of_head_ne_last {l : List ℚ} {a e : ℚ}
    (hh : l.head? = some a) (hl : l.getLast? = some e) (hne : a ≠ e) :
    2 ≤ l.length := by
  match l, hh with
  | [x], hh =>
    simp at hh hl
    exact absurd (hh.symm.trans hl) hne
  | x :: y :: rest, _ => simp

theorem adjPairs_length : ∀ l : List ℚ, (adjPairs l).length = l.length - 1
  | [] => rfl
  | [_] => rfl
  | u :: v :: rest => by
    rw [adjPairs]
    have := adjPairs_length (v :: rest)
    simp only [List.length_cons] at *
    omega

/- ------------------------------------------------------------------
   Current-ISI bounds.
   ------------------------------------------------------------------ -/

theorem lastLE_le (l : List ℚ) (t : ℚ) : lastLE l t ≤ t := by
  unfold lastLE
  cases h : (l.filter (fun s => decide (s ≤ t))).getLast? with
  | none => simp
  | some c =>
    simp only [Option.getD_some]
    have := List.of_mem_filter (mem_of_getLast?_eq h)
    simpa using this

theorem le_firstGT (l : List ℚ) (t : ℚ) : t ≤ firstGT l t := by
  unfold firstGT
  cases h : l.find? (fun s => decide (t < s)) with
  | none => simp
  | some c =>
    simp only [Option.getD_some]
    have := List.find?_some h
    simp at this
    exact le_of_lt this

theorem currISI_nonneg (l : List ℚ) (t : ℚ) : 0 ≤ currISI l t := by
  unfold currISI
  have := le_trans (lastLE_le l t) (le_firstGT l t)
  linarith

theorem isiValue_bounds {a b : ℚ} (ha : 0 ≤ a) (hb : 0 ≤ b) :
    0 ≤ isiValue a b ∧ isiValue a b ≤ 1 := by
  unfold isiValue
  by_cases h : max a b = 0
  · simp [h]
  · simp only [if_neg h]
    have hmax : 0 < max a b := lt_of_le_of_ne (le_max_of_le_left ha) (Ne.symm h)
    constructor
    · exact div_nonneg (abs_nonneg _) (le_of_lt hmax)
    · rw [div_le_one hmax]
      rcases le_total a b with hab | hab
      · rw [abs_of_nonpos (by linarith), max_eq_right hab]
        linarith
      · rw [abs_of_nonneg (by linarith), max_eq_left hab]
        linarith

theorem trainA_valid : trainA.Valid := by
  norm_num [SpikeTrain.Valid, trainA, mkSpikeTrain, add_auxiliary_spikes,
    List.chain'_cons, List.chain'_singleton]

theorem trainB_valid : trainB.Valid := by
  norm_num [SpikeTrain.Valid, trainB, mkSpikeTrain, add_auxiliary_spikes,
    List.chain'_cons, List.chain'_singleton]

theorem trainC_valid : trainC.Valid := by
  norm_num [SpikeTrain.Valid, trainC, mkSpikeTrain, add_auxiliary_spikes,
    List.chain'_cons, List.chain'_singleton]

theorem trainD_valid : trainD.Valid := by
  norm_num [SpikeTrain.Valid, trainD, mkSpikeTrain, add_auxiliary_spikes,
    List.chain'_cons, List.chain'_singleton]

/- ------------------------------------------------------------------
   Claim theorems.
   ------------------------------------------------------------------ -/

/-- C9: for every pair of valid spike trains sharing an interval, the
profile returned by the pairwise spike-distance computation has a
strictly increasing breakpoint sequence whose first breakpoint is
`t_start` and whose last breakpoint is `t_end`. -/
theorem spike_profile_breakpoints_span (st1 st2 : SpikeTrain)
    (h1 : st1.Valid) (h2 : st2.Valid)
    (hs : st1.t_start = st2.t_start) (he : st1.t_end = st2.t_end) :
    ∃ p, spike_profile st1 st2 = .ok p ∧ p.x.Chain' (· < ·) ∧
      p.x.head? = some st1.t_start ∧ p.x.getLast? = some st1.t_end := by
  refine ⟨spike_distance_impl st1.spikes st2.spikes st1.t_start st1.t_end, ?_, ?_⟩
  · unfold spike_profile
    rw [if_pos hs, if_pos he]
  · exact unionGrid_span h1 h2 hs he

/-- C9 witness at the reference trains. -/
theorem spike_profile_breakpoints_span_witness :
    ∃ p, spike_profile trainA trainB = .ok p ∧ p.x.Chain' (· < ·) ∧
      p.x.head? = some trainA.t_start ∧ p.x.getLast? = some trainA.t_end :=
  spike_profile_breakpoints_span trainA trainB trainA_valid trainB_valid rfl rfl

/-- C3: mismatched observation intervals make `spike_profile` and
`spike_distance` fail with the invalid-input error at entry; identical
intervals pass the entry check and produce a profile. -/
theorem interval_check_at_entry (a b : SpikeTrain) :
    ((a.t_start ≠ b.t_start ∨ a.t_end ≠ b.t_end) →
      spike_profile a b = .error .invalidInput ∧
      ∀ interval, spike_distance a b interval = .error .invalidInput) ∧
    (a.t_start = b.t_start → a.t_end = b.t_end →
      ∃ p, spike_profile a b = .ok p) := by
  constructor
  · intro hne
    have hp : spike_profile a b = .error .invalidInput := by
      unfold spike_profile
      rcases hne with h | h
      · rw [if_neg h]
      · by_cases hs : a.t_start = b.t_start
        · rw [if_pos hs, if_neg h]
        · rw [if_neg hs]
    refine ⟨hp, fun interval => ?_⟩
    unfold spike_distance
    rw [hp]
    rfl
  · intro hs he
    exact ⟨_, by unfold spike_profile; rw [if_pos hs, if_pos he]⟩

/-- C3 witness: a concrete mismatched pair fails, a matched pair passes. -/
theorem interval_check_at_entry_witness :
    (spike_profile trainA (mkSpikeTrain [0.3] 0 2) = .error .invalidInput ∧
      ∀ interval, spike_distance trainA (mkSpikeTrain [0.3] 0 2) interval =
        .error .invalidInput) ∧
    (∃ p, spike_profile trainA trainB = .ok p) :=
  ⟨(interval_check_at_entry trainA (mkSpikeTrain [0.3] 0 2)).1
      (Or.inr (by decide)),
    (interval_check_at_entry trainA trainB).2 rfl rfl⟩

/-- C4: every segment value of the ISI-distance profile is the guarded
ratio |isi1 - isi2| / max(isi1, isi2) of the two current ISIs at the
segment start — 0 when both ISIs are 0 — and always lies in [0, 1], so
the computation is well-defined on every input. -/
theorem isi_profile_values_guarded (st1 st2 : SpikeTrain) (v : ℚ)
    (hv : v ∈ (isi_distance_impl st1.spikes st2.spikes).y) :
    (0 ≤ v ∧ v ≤ 1) ∧
    ∃ p ∈ adjPairs (unionGrid st1.spikes st2.spikes),
      (max (currISI st1.spikes p.1) (currISI st2.spikes p.1) ≠ 0 →
        v = |currISI st1.spikes p.1 - currISI st2.spikes p.1| /
          max (currISI st1.spikes p.1) (currISI st2.spikes p.1)) ∧
      (currISI st1.spikes p.1 = 0 ∧ currISI st2.spikes p.1 = 0 → v = 0) := by
  unfold isi_distance_impl at hv
  simp only [List.mem_map] at hv
  obtain ⟨p, hp, hpv⟩ := hv
  constructor
  · rw [← hpv]
    exact isiValue_bounds (currISI_nonneg _ _) (currISI_nonneg _ _)
  · refine ⟨p, hp, ?_, ?_⟩
    · intro hne
      rw [← hpv]
      unfold isiValue
      rw [if_neg hne]
    · intro ⟨hz1, hz2⟩
      rw [← hpv]
      unfold isiValue
      rw [hz1, hz2]
      simp

/-- C1: the ISI-distance profile of the reference trains has exactly the
breakpoints and per-segment values of the hand computation, and its
average is the breakpoint-width-weighted mean of those values. -/
theorem isi_profile_reference_case :
    isi_profile trainA trainB =
      .ok ⟨[0, 0.2, 0.3, 0.4, 0.45, 0.6, 0.7, 0.8, 0.9, 0.95, 1],
           [1/3, 1/3, 1/4, 1/4, 3/7, 5/7, 1/7, 2/3, 5/6, 5/6]⟩ ∧
    (isi_distance_impl trainA.spikes trainB.spikes).avrg =
      ((0.2 - 0) * (1/3) + (0.3 - 0.2) * (1/3) + (0.4 - 0.3) * (1/4) +
        (0.45 - 0.4) * (1/4) + (0.6 - 0.45) * (3/7) + (0.7 - 0.6) * (5/7) +
        (0.8 - 0.7) * (1/7) + (0.9 - 0.8) * (2/3) + (0.95 - 0.9) * (5/6) +
        (1 - 0.95) * (5/6)) / (1 - 0) := by
  have himpl : isi_distance_impl trainA.spikes trainB.spikes =
      ⟨[0, 0.2, 0.3, 0.4, 0.45, 0.6, 0.7, 0.8, 0.9, 0.95, 1],
       [1/3, 1/3, 1/4, 1/4, 3/7, 5/7, 1/7, 2/3, 5/6, 5/6]⟩ := by
    norm_num [trainA, trainB, mkSpikeTrain, add_auxiliary_spikes, isi_distance_impl,
      unionGrid, insertGrid, adjPairs, currISI, lastLE, firstGT, isiValue,
      List.filter, List.find?, abs_of_pos]
  constructor
  · rw [show isi_profile trainA trainB =
        .ok (isi_distance_impl trainA.spikes trainB.spikes) from by
      unfold isi_profile
      norm_num [trainA, trainB, mkSpikeTrain]]
    rw [himpl]
  · rw [himpl]
    norm_num [PieceWiseConstFunc.avrg, pcSum]

/-- C4 witness: the first segment value of the reference ISI profile. -/
theorem isi_profile_values_guarded_witness :
    ((0 : ℚ) ≤ 1/3 ∧ (1/3 : ℚ) ≤ 1) ∧
    ∃ p ∈ adjPairs (unionGrid trainA.spikes trainB.spikes),
      (max (currISI trainA.spikes p.1) (currISI trainB.spikes p.1) ≠ 0 →
        (1/3 : ℚ) = |currISI trainA.spikes p.1 - currISI trainB.spikes p.1| /
          max (currISI trainA.spikes p.1) (currISI trainB.spikes p.1)) ∧
      (currISI trainA.spikes p.1 = 0 ∧ currISI trainB.spikes p.1 = 0 →
        (1/3 : ℚ) = 0) :=
  isi_profile_values_guarded trainA trainB (1/3) (by
    norm_num [trainA, trainB, mkSpikeTrain, add_auxiliary_spikes, isi_distance_impl,
      unionGrid, insertGrid, adjPairs, currISI, lastLE, firstGT, isiValue,
      List.filter, List.find?, abs_of_pos])

set_option maxHeartbeats 2000000 in
/-- C6: for the reference three-spike train against a single spike near
one of its spikes, `spike_sync` with the default adaptive window is
exactly 1/2; a `max_tau` below the true gap drives it to 0. -/
theorem spike_sync_reference_cases :
    spike_sync syncA (syncB 2.1) none = 1/2 ∧
    spike_sync syncA (syncB 3.1) none = 1/2 ∧
    spike_sync syncA (syncB 1.1) none = 1/2 ∧
    spike_sync syncA (syncB 0.9) none = 1/2 ∧
    spike_sync syncA (syncB 2.1) (some 0.05) = 0 := by
  norm_num [syncA, syncB, add_auxiliary_spikes, spike_sync, realSpikes, coincident,
    adaptiveTau, prevGap, nextGap, lastLT, firstGT,
    List.filter, List.find?, min_def, abs_of_nonneg, abs_of_neg]

/-- Over the full support of a sorted grid, the clipped integral is
exactly the trapezoidal sum of the segments. -/
theorem clipAux_eq_trapzSum : ∀ (x y1 y2 : List ℚ) (a b : ℚ),
    x.Chain' (· < ·) → (∀ s ∈ x, a ≤ s) → (∀ s ∈ x, s ≤ b) →
    clipAux x y1 y2 a b = trapzSum x y1 y2 := by
  intro x
  induction x with
  | nil => intro y1 y2 a b _ _ _; rfl
  | cons u tail ih =>
    intro y1 y2 a b hc hlo hhi
    cases tail with
    | nil =>
      cases y1 <;> cases y2 <;> rfl
    | cons v xs =>
      cases y1 with
      | nil => rfl
      | cons c cs =>
        cases y2 with
        | nil => rfl
        | cons d ds =>
          rw [clipAux, trapzSum]
          have huv : u < v := (List.chain'_cons.mp hc).1
          have hau : a ≤ u := hlo u (List.mem_cons_self _ _)
          have hvb : v ≤ b := hhi v (List.mem_cons_of_mem u (List.mem_cons_self _ _))
          have hlomax : max u a = u := max_eq_left hau
          have hhimin : min v b = v := min_eq_left hvb
          rw [hlomax, hhimin]
          have hseg : segClip u v c d u v = (v - u) * (c + d) / 2 := by
            unfold segClip
            rw [if_pos huv]
            have h1 : c + (d - c) * (u - u) / (v - u) = c := by
              rw [sub_self, mul_zero, zero_div, add_zero]
            have h2 : c + (d - c) * (v - u) / (v - u) = d := by
              rw [mul_div_assoc, div_self (by linarith), mul_one]
              ring
            rw [h1, h2]
            ring
          rw [hseg]
          congr 1
          apply ih cs ds a b (List.chain'_cons.mp hc).2
          · intro s hsm
            exact hlo s (List.mem_cons_of_mem u hsm)
          · intro s hsm
            exact hhi s (List.mem_cons_of_mem u hsm)

/-- C7: for valid trains sharing an interval, `spike_distance` with no
interval is the trapezoidal integral of the profile divided by the total
duration, and with an explicit sub-interval it is the integral clipped to
that sub-interval divided by its width. -/
theorem spike_distance_is_time_average (st1 st2 : SpikeTrain)
    (h1 : st1.Valid) (h2 : st2.Valid)
    (hs : st1.t_start = st2.t_start) (he : st1.t_end = st2.t_end) :
    (spike_distance st1 st2 none = .ok
      (trapzSum (spike_distance_impl st1.spikes st2.spikes st1.t_start st1.t_end).x
        (spike_distance_impl st1.spikes st2.spikes st1.t_start st1.t_end).y1
        (spike_distance_impl st1.spikes st2.spikes st1.t_start st1.t_end).y2 /
        (st1.t_end - st1.t_start))) ∧
    (∀ a b : ℚ, spike_distance st1 st2 (some (a, b)) = .ok
      ((spike_distance_impl st1.spikes st2.spikes st1.t_start st1.t_end).integralClip a b /
        (b - a))) := by
  have hok : spike_profile st1 st2 =
      .ok (spike_distance_impl st1.spikes st2.spikes st1.t_start st1.t_end) := by
    unfold spike_profile
    rw [if_pos hs, if_pos he]
  obtain ⟨hsort, hhead, hlast⟩ := unionGrid_span h1 h2 hs he
  constructor
  · unfold spike_distance
    rw [hok]
    simp only [Except.map]
    congr 1
    unfold PieceWiseLinFunc.avrg
    have hx : (spike_distance_impl st1.spikes st2.spikes st1.t_start st1.t_end).x =
        unionGrid st1.spikes st2.spikes := rfl
    rw [hx, hhead, hlast]
    simp only [Option.getD_some]
    unfold PieceWiseLinFunc.integralClip
    rw [hx]
    rw [clipAux_eq_trapzSum _ _ _ _ _ hsort
      (fun s hsm => head_le_of_sorted hsort hhead hsm)
      (fun s hsm => le_getLast_of_sorted hsort hlast hsm)]
  · intro a b
    unfold spike_distance
    rw [hok]
    rfl

/-- C7 witness at the reference trains. -/
theorem spike_distance_is_time_average_witness :
    (spike_distance trainA trainB none = .ok
      (trapzSum (spike_distance_impl trainA.spikes trainB.spikes trainA.t_start trainA.t_end).x
        (spike_distance_impl trainA.spikes trainB.spikes trainA.t_start trainA.t_end).y1
        (spike_distance_impl trainA.spikes trainB.spikes trainA.t_start trainA.t_end).y2 /
        (trainA.t_end - trainA.t_start))) ∧
    (∀ a b : ℚ, spike_distance trainA trainB (some (a, b)) = .ok
      ((spike_distance_impl trainA.spikes trainB.spikes trainA.t_start trainA.t_end).integralClip a b /
        (b - a))) :=
  spike_distance_is_time_average trainA trainB trainA_valid trainB_valid rfl rfl

/- ------------------------------------------------------------------
   Symmetry of the SPIKE-distance computation and matrix lemmas.
   ------------------------------------------------------------------ -/

theorem segVal_comm (s1 s2 : List ℚ) (t0 t1 u t : ℚ) :
    segVal s1 s2 t0 t1 u t = segVal s2 s1 t0 t1 u t := by
  simp only [segVal]
  ring

theorem spike_distance_impl_comm (s1 s2 : List ℚ) (t0 t1 : ℚ) :
    spike_distance_impl s1 s2 t0 t1 = spike_distance_impl s2 s1 t0 t1 := by
  unfold spike_distance_impl
  rw [unionGrid_comm s2 s1]
  simp only [PieceWiseLinFunc.mk.injEq, true_and]
  constructor <;>
    exact List.map_congr_left (fun p _ => by rw [segVal_comm])

theorem spike_profile_comm (a b : SpikeTrain)
    (hs : a.t_start = b.t_start) (he : a.t_end = b.t_end) :
    spike_profile a b = spike_profile b a := by
  unfold spike_profile
  rw [if_pos hs, if_pos he, if_pos hs.symm, if_pos he.symm,
    spike_distance_impl_comm, hs, he]

theorem spike_distance_comm (a b : SpikeTrain)
    (hs : a.t_start = b.t_start) (he : a.t_end = b.t_end)
    (interval : Option (ℚ × ℚ)) :
    spike_distance a b interval = spike_distance b a interval := by
  unfold spike_distance
  rw [spike_profile_comm a b hs he]

/-- A monadic map over `Except` whose body always succeeds is the pure map. -/
theorem mapM_ok {α β : Type} (l : List α) (f : α → Except PySpikeError β)
    (g : α → β) (h : ∀ x ∈ l, f x = .ok (g x)) : l.mapM f = .ok (l.map g) := by
  induction l with
  | nil => rfl
  | cons a rest ih =>
    rw [List.mapM_cons, h a (List.mem_cons_self _ _),
      ih (fun x hx => h x (List.mem_cons_of_mem a hx))]
    rfl

theorem getD_range_map {β : Type} (k i : ℕ) (f : ℕ → β) (d : β) (hik : i < k) :
    ((List.range k).map f).getD i d = f i := by
  simp [List.getD_eq_getElem?_getD, List.getElem?_map, List.getElem?_range, hik]

theorem getD_mem_of_lt {α : Type} (l : List α) (i : ℕ) (d : α)
    (h : i < l.length) : l.getD i d ∈ l := by
  rw [List.getD_eq_getElem?_getD, List.getElem?_eq_getElem h]
  exact List.getElem_mem _

/-- A passing entry check makes `spike_distance` return the averaged
backend profile. -/
theorem spike_distance_ok (x y : SpikeTrain) (interval : Option (ℚ × ℚ))
    (hs : x.t_start = y.t_start) (he : x.t_end = y.t_end) :
    spike_distance x y interval =
      .ok ((spike_distance_impl x.spikes y.spikes x.t_start x.t_end).avrg interval) := by
  unfold spike_distance spike_profile
  rw [if_pos hs, if_pos he]
  rfl

theorem getD_range (k i : ℕ) (d : ℕ) (hik : i < k) :
    (List.range k).getD i d = i := by
  simp [List.getD_eq_getElem?_getD, List.getElem?_range, hik]

/-- C5: for valid trains sharing an interval, the spike-distance matrix is
a k x k matrix with zero diagonal, symmetric entries, and off-diagonal
entry (i,j) equal to the pairwise spike distance of trains i and j. -/
theorem spike_distance_matrix_props (trains : List SpikeTrain) (a e : ℚ)
    (hall : ∀ st ∈ trains, st.Valid ∧ st.t_start = a ∧ st.t_end = e)
    (hk : 2 ≤ trains.length) :
    ∃ m, spike_distance_matrix trains none none = .ok m ∧
      m.length = trains.length ∧
      (∀ r ∈ m, r.length = trains.length) ∧
      ∀ i j, i < trains.length → j < trains.length →
        ((m.getD i []).getD j 0 = (m.getD j []).getD i 0) ∧
        (i = j → (m.getD i []).getD j 0 = 0) ∧
        (i ≠ j → spike_distance (trains.getD i default) (trains.getD j default) none =
          .ok ((m.getD i []).getD j 0)) := by
  have hshare : ∀ i j, i < trains.length → j < trains.length →
      (trains.getD i default).t_start = (trains.getD j default).t_start ∧
      (trains.getD i default).t_end = (trains.getD j default).t_end := by
    intro i j hi hj
    have h1 := hall _ (getD_mem_of_lt trains i default hi)
    have h2 := hall _ (getD_mem_of_lt trains j default hj)
    exact ⟨h1.2.1.trans h2.2.1.symm, h1.2.2.trans h2.2.2.symm⟩
  set k := trains.length with hkdef
  set pv : ℕ → ℕ → ℚ := fun i j =>
    ((spike_distance_impl (trains.getD i default).spikes
      (trains.getD j default).spikes (trains.getD i default).t_start
      (trains.getD i default).t_end).avrg none) with hpv
  set E : ℕ → ℕ → ℚ := fun i j =>
    if i = j then 0 else if i < j then pv i j else pv j i with hE
  refine ⟨(List.range k).map (fun i => (List.range k).map (E i)), ?_, ?_, ?_, ?_⟩
  · unfold spike_distance_matrix _generic_distance_matrix
    have hval : (List.range k).all (fun i => decide (i < trains.length)) = true := by
      rw [List.all_eq_true]
      intro i hi
      simpa using List.mem_range.mp hi
    rw [if_pos hval]
    rw [List.length_range]
    rw [if_neg (by omega)]
    apply mapM_ok
    intro i hi
    have hik : i < k := List.mem_range.mp hi
    apply mapM_ok
    intro j hj
    have hjk : j < k := List.mem_range.mp hj
    rw [getD_range k i 0 hik, getD_range k j 0 hjk]
    by_cases hij : i = j
    · rw [if_pos hij, hE]
      simp [hij]
    · rw [if_neg hij, hE]
      simp only [if_neg hij]
      by_cases hlt : i < j
      · rw [if_pos hlt, if_pos hlt]
        exact spike_distance_ok _ _ none (hshare i j hik hjk).1 (hshare i j hik hjk).2
      · rw [if_neg hlt, if_neg hlt]
        exact spike_distance_ok _ _ none (hshare j i hjk hik).1 (hshare j i hjk hik).2
  · simp
  · intro r hr
    rcases List.mem_map.mp hr with ⟨i, _, hri⟩
    rw [← hri]
    simp
  · intro i j hi hj
    rw [getD_range_map k i _ [] hi, getD_range_map k j _ [] hj,
      getD_range_map k j (E i) 0 hj, getD_range_map k i (E j) 0 hi]
    refine ⟨?_, ?_, ?_⟩
    · rw [hE]
      rcases lt_trichotomy i j with h | h | h
      · simp [h.ne, h.ne', h, not_lt_of_gt h]
      · simp [h]
      · simp [h.ne, h.ne', h, not_lt_of_gt h]
    · intro hij
      rw [hE]
      simp [hij]
    · intro hij
      rw [hE]
      simp only [if_neg hij]
      by_cases hlt : i < j
      · rw [if_pos hlt]
        exact spike_distance_ok _ _ none (hshare i j hi hj).1 (hshare i j hi hj).2
      · rw [if_neg hlt]
        have hji : j < i := by omega
        rw [spike_distance_comm _ _ (hshare i j hi hj).1 (hshare i j hi hj).2 none]
        exact spike_distance_ok _ _ none (hshare j i hj hi).1 (hshare j i hj hi).2

/-- C5 witness at the four fixture trains. -/
theorem spike_distance_matrix_props_witness :
    ∃ m, spike_distance_matrix [trainA, trainB, trainC, trainD] none none = .ok m ∧
      m.length = [trainA, trainB, trainC, trainD].length ∧
      (∀ r ∈ m, r.length = [trainA, trainB, trainC, trainD].length) ∧
      ∀ i j, i < [trainA, trainB, trainC, trainD].length →
        j < [trainA, trainB, trainC, trainD].length →
        ((m.getD i []).getD j 0 = (m.getD j []).getD i 0) ∧
        (i = j → (m.getD i []).getD j 0 = 0) ∧
        (i ≠ j → spike_distance ([trainA, trainB, trainC, trainD].getD i default)
            ([trainA, trainB, trainC, trainD].getD j default) none =
          .ok ((m.getD i []).getD j 0)) :=
  spike_distance_matrix_props [trainA, trainB, trainC, trainD] 0 1
    (by
      intro st hst
      simp only [List.mem_cons, List.not_mem_nil, or_false] at hst
      rcases hst with rfl | rfl | rfl | rfl
      · exact ⟨trainA_valid, rfl, rfl⟩
      · exact ⟨trainB_valid, rfl, rfl⟩
      · exact ⟨trainC_valid, rfl, rfl⟩
      · exact ⟨trainD_valid, rfl, rfl⟩)
    (by simp)

/- ------------------------------------------------------------------
   Index-subset lemmas for the multivariate combinator.
   ------------------------------------------------------------------ -/

theorem allPairs_map {α β : Type} (g : α → β) : ∀ l : List α,
    allPairs (l.map g) = (allPairs l).map (fun p => (g p.1, g p.2))
  | [] => rfl
  | a :: rest => by
    rw [List.map_cons, allPairs, allPairs, List.map_append, allPairs_map g rest]
    congr 1
    rw [List.map_map, List.map_map]
    rfl

theorem self_eq_range_map_getD {α : Type} (d : α) : ∀ l : List α,
    l = (List.range l.length).map (fun i => l.getD i d)
  | [] => rfl
  | a :: rest => by
    rw [List.length_cons, List.range_succ_eq_map, List.map_cons, List.map_map]
    simp only [List.getD_cons_zero]
    congr 1
    rw [show ((fun i => (a :: rest).getD i d) ∘ Nat.succ) =
        (fun i => rest.getD i d) from rfl]
    exact self_eq_range_map_getD d rest

theorem mem_allPairs {α : Type} : ∀ {l : List α} {p : α × α},
    p ∈ allPairs l → p.1 ∈ l ∧ p.2 ∈ l := by
  intro l
  induction l with
  | nil => intro p hp; cases hp
  | cons a rest ih =>
    intro p hp
    rw [allPairs] at hp
    rcases List.mem_append.mp hp with h | h
    · rcases List.mem_map.mp h with ⟨b, hb, hpb⟩
      rw [← hpb]
      exact ⟨List.mem_cons_self _ _, List.mem_cons_of_mem a hb⟩
    · obtain ⟨h1, h2⟩ := ih h
      exact ⟨List.mem_cons_of_mem a h1, List.mem_cons_of_mem a h2⟩

theorem getD_map_lt {α β : Type} (g : α → β) (l : List α) (i : ℕ) (d : β)
    (d' : α) (h : i < l.length) : (l.map g).getD i d = g (l.getD i d') := by
  rw [List.getD_eq_getElem?_getD, List.getElem?_map, List.getD_eq_getElem?_getD,
    List.getElem?_eq_getElem h]
  simp

/-- The selected train-pair list of an index subset equals that of the
extracted sub-list of trains indexed by positions. -/
theorem pairs_subset_extraction (trains : List SpikeTrain) (idx : List ℕ) :
    (allPairs idx).map (fun q =>
        (trains.getD q.1 default, trains.getD q.2 default)) =
      (allPairs (List.range (idx.map (fun i => trains.getD i default)).length)).map
        (fun q => ((idx.map (fun i => trains.getD i default)).getD q.1 default,
          (idx.map (fun i => trains.getD i default)).getD q.2 default)) := by
  rw [List.length_map]
  rw [show allPairs idx =
      (allPairs (List.range idx.length)).map (fun p => (idx.getD p.1 0, idx.getD p.2 0)) from by
    have h := allPairs_map (fun i => idx.getD i 0) (List.range idx.length)
    rw [← self_eq_range_map_getD 0 idx] at h
    exact h]
  rw [List.map_map]
  apply List.map_congr_left
  intro p hp
  obtain ⟨h1, h2⟩ := mem_allPairs hp
  have hb1 : p.1 < idx.length := List.mem_range.mp h1
  have hb2 : p.2 < idx.length := List.mem_range.mp h2
  simp only [Function.comp]
  rw [getD_map_lt _ idx p.1 default 0 hb1, getD_map_lt _ idx p.2 default 0 hb2]

/-- C8: the multivariate aggregate (profile and scalar distance) computed
with an explicit index subset equals the aggregate over the extracted
sub-list of trains. -/
theorem multi_subset_extraction (trains : List SpikeTrain) (idx : List ℕ)
    (hidx : ∀ i ∈ idx, i < trains.length) :
    (spike_profile_multi trains (some idx) =
      spike_profile_multi (idx.map (fun i => trains.getD i default)) none) ∧
    (∀ interval, spike_distance_multi trains (some idx) interval =
      spike_distance_multi (idx.map (fun i => trains.getD i default)) none interval) := by
  have hgen : _generic_profile_multi trains spike_profile (some idx) =
      _generic_profile_multi (idx.map (fun i => trains.getD i default))
        spike_profile none := by
    unfold _generic_profile_multi
    have hv1 : idx.all (fun i => decide (i < trains.length)) = true := by
      rw [List.all_eq_true]
      intro i hi
      simpa using hidx i hi
    have hv2 : (List.range (idx.map (fun i => trains.getD i default)).length).all
        (fun i => decide (i < (idx.map (fun i => trains.getD i default)).length)) = true := by
      rw [List.all_eq_true]
      intro i hi
      simpa using List.mem_range.mp hi
    rw [if_pos hv1, if_pos hv2]
    rw [pairs_subset_extraction trains idx]
    have hlen : (allPairs idx).length =
        (allPairs (List.range (idx.map (fun i => trains.getD i default)).length)).length := by
      have := congrArg List.length (pairs_subset_extraction trains idx)
      simpa using this
    rw [hlen]
  constructor
  · unfold spike_profile_multi
    rw [hgen]
  · intro interval
    unfold spike_distance_multi spike_profile_multi
    rw [hgen]

/-- C8 witness: subset [1, 3] of the four fixture trains. -/
theorem multi_subset_extraction_witness :
    (spike_profile_multi [trainA, trainB, trainC, trainD] (some [1, 3]) =
      spike_profile_multi ([1, 3].map
        (fun i => [trainA, trainB, trainC, trainD].getD i default)) none) ∧
    (∀ interval, spike_distance_multi [trainA, trainB, trainC, trainD]
        (some [1, 3]) interval =
      spike_distance_multi ([1, 3].map
        (fun i => [trainA, trainB, trainC, trainD].getD i default)) none interval) :=
  multi_subset_extraction [trainA, trainB, trainC, trainD] [1, 3]
    (by intro i hi; fin_cases hi <;> simp)

/- ------------------------------------------------------------------
   Pointwise semantics of profile addition and scaling.
   ------------------------------------------------------------------ -/

theorem innerPts_subset : ∀ (l : List ℚ), ∀ p ∈ innerPts l, p ∈ l := by
  intro l
  induction l with
  | nil => intro p hp; cases hp
  | cons u tail ih =>
    intro p hp
    match tail, hp with
    | v :: w :: xs, hp =>
      rw [innerPts] at hp
      rcases List.mem_cons.mp hp with h | h
      · rw [h]; exact List.mem_cons_of_mem u (List.mem_cons_self _ _)
      · exact List.mem_cons_of_mem u (ih p h)

theorem innerPts_lt_last : ∀ (l : List ℚ), l.Chain' (· < ·) →
    ∀ e, l.getLast? = some e → ∀ p ∈ innerPts l, p < e := by
  intro l
  induction l with
  | nil => intro _ e _ p hp; cases hp
  | cons u tail ih =>
    intro hc e he p hp
    match tail, hp with
    | v :: w :: xs, hp =>
      rw [List.getLast?_cons_cons] at he
      rw [innerPts] at hp
      rcases List.mem_cons.mp hp with h | h
      · rw [h]
        have hvw : v < w := (List.chain'_cons.mp (List.chain'_cons.mp hc).2).1
        have hwe : w ≤ e := le_getLast_of_sorted (List.chain'_cons.mp hc).2 he
          (List.mem_cons_of_mem v (List.mem_cons_self _ _))
        exact lt_of_lt_of_le hvw hwe
      · exact ih (List.chain'_cons.mp hc).2 e he p h

/-- The segment-selection walk depends on the selection time only through
its position relative to the interior breakpoints. -/
theorem segEndAux_congr_sel : ∀ (x y1 y2 : List ℚ) (s s' t : ℚ),
    (∀ p ∈ innerPts x, (s < p ↔ s' < p)) →
    segEndAux x y1 y2 s t = segEndAux x y1 y2 s' t := by
  intro x
  induction x with
  | nil => intro y1 y2 s s' t _; rfl
  | cons u tail ih =>
    intro y1 y2 s s' t hiff
    match tail with
    | [] => rfl
    | [v] =>
      rcases y1 with _ | ⟨a, _ | ⟨a2, as⟩⟩ <;>
        rcases y2 with _ | ⟨b, _ | ⟨b2, bs⟩⟩ <;> rfl
    | v :: w :: xs =>
      match y1, y2 with
      | [], _ => rfl
      | _ :: _, [] => rfl
      | a :: as, b :: bs =>
        have hv := hiff v (by rw [innerPts]; exact List.mem_cons_self _ _)
        rw [segEndAux, segEndAux]
        by_cases h : s < v
        · rw [if_pos h, if_pos (hv.mp h)]
        · rw [if_neg h, if_neg (fun h' => h (hv.mpr h'))]
          exact ih as bs s s' t (fun p hp =>
            hiff p (by rw [innerPts]; exact List.mem_cons_of_mem v hp))

theorem chord_affine (c d u v t : ℚ) (huv : u ≠ v) :
    (c + d * u) + ((c + d * v) - (c + d * u)) * (t - u) / (v - u) = c + d * t := by
  have h : v - u ≠ 0 := sub_ne_zero.mpr (Ne.symm huv)
  field_simp
  ring

/-- The chord of the selected segment's line through two distinct times
reproduces the line: `segEndAux` is affine in the evaluation time. -/
theorem segEndAux_chord : ∀ (x y1 y2 : List ℚ) (s u v t : ℚ), u ≠ v →
    segEndAux x y1 y2 s u +
      (segEndAux x y1 y2 s v - segEndAux x y1 y2 s u) * (t - u) / (v - u) =
    segEndAux x y1 y2 s t := by
  intro x
  induction x with
  | nil => intro y1 y2 s u v t huv; simp [segEndAux]
  | cons p tail ih =>
    intro y1 y2 s u v t huv
    match tail with
    | [] => simp [segEndAux]
    | [q] =>
      rcases y1 with _ | ⟨a, _ | ⟨a2, as⟩⟩ <;>
          rcases y2 with _ | ⟨b, _ | ⟨b2, bs⟩⟩ <;>
        try simp [segEndAux]
      have hvu : v - u ≠ 0 := sub_ne_zero.mpr (Ne.symm huv)
      rw [div_eq_mul_inv _ (v - u), div_eq_mul_inv _ (q - p),
        div_eq_mul_inv _ (q - p), div_eq_mul_inv _ (q - p)]
      rw [show ((b - a) * (v - p) * (q - p)⁻¹ - (b - a) * (u - p) * (q - p)⁻¹) =
          (b - a) * (q - p)⁻¹ * (v - u) from by ring]
      rw [show (b - a) * (q - p)⁻¹ * (v - u) * (t - u) * (v - u)⁻¹ =
          (b - a) * (q - p)⁻¹ * (t - u) * ((v - u) * (v - u)⁻¹) from by ring]
      rw [mul_inv_cancel₀ hvu]
      ring
    | q :: w :: xs =>
      match y1, y2 with
      | [], _ => simp [segEndAux]
      | _ :: _, [] => simp [segEndAux]
      | a :: as, b :: bs =>
        by_cases h : s < q
        · have hform : ∀ τ : ℚ, segEndAux (p :: q :: w :: xs) (a :: as) (b :: bs) s τ =
              (a - (b - a) * p / (q - p)) + ((b - a) / (q - p)) * τ := by
            intro τ
            rw [segEndAux, if_pos h]
            ring
          rw [hform, hform, hform]
          exact chord_affine _ _ u v t huv
        · have hform : ∀ τ : ℚ, segEndAux (p :: q :: w :: xs) (a :: as) (b :: bs) s τ =
              segEndAux (q :: w :: xs) as bs s τ := by
            intro τ
            rw [segEndAux, if_neg h]
          rw [hform, hform, hform]
          exact ih as bs s u v t huv

theorem segEnd_chord (h : PieceWiseLinFunc) (s u v t : ℚ) (huv : u ≠ v) :
    h.segEnd s u + (h.segEnd s v - h.segEnd s u) * (t - u) / (v - u) = h.segEnd s t :=
  segEndAux_chord h.x h.y1 h.y2 s u v t huv

/-- Core of the pointwise-add semantics: evaluating the union-grid re-broken
sum profile at a time inside the covered span gives the sum of the two
profiles' values. -/
theorem segEndAux_add_eval (f g : PieceWiseLinFunc) (e : ℚ)
    (hfc : f.x.Chain' (· < ·)) (hgc : g.x.Chain' (· < ·))
    (hfl : f.x.getLast? = some e) (hgl : g.x.getLast? = some e) :
    ∀ (U : List ℚ) (t : ℚ),
      U.Chain' (· < ·) →
      U.getLast? = some e →
      (∀ p ∈ f.x, (∃ u0, U.head? = some u0 ∧ p ≤ u0) ∨ p ∈ U) →
      (∀ p ∈ g.x, (∃ u0, U.head? = some u0 ∧ p ≤ u0) ∨ p ∈ U) →
      (∀ u0, U.head? = some u0 → u0 ≤ t) →
      t ≤ e →
      2 ≤ U.length →
      segEndAux U ((adjPairs U).map (fun p => f.valueAt p.1 + g.valueAt p.1))
        ((adjPairs U).map (fun p => f.segEnd p.1 p.2 + g.segEnd p.1 p.2)) t t
        = f.valueAt t + g.valueAt t := by
  intro U
  induction U with
  | nil => intro t _ _ _ _ _ _ hlen; simp at hlen
  | cons u0 tail ih =>
    intro t hc hlast hfin hgin hhead hte hlen
    have hu0t : u0 ≤ t := hhead u0 rfl
    match tail, hlen with
    | [v], _ =>
      -- the single remaining segment covers [u0, v] with v = e
      have hv : v = e := by simpa using hlast
      have hu0v : u0 < v := (List.chain'_cons.mp hc).1
      have hsel : ∀ (h : PieceWiseLinFunc), h.x.Chain' (· < ·) →
          h.x.getLast? = some e →
          (∀ p ∈ h.x, (∃ w, (u0 :: [v]).head? = some w ∧ p ≤ w) ∨ p ∈ (u0 :: [v])) →
          h.segEnd u0 t = h.valueAt t := by
        intro h hhc hhl hin
        apply segEndAux_congr_sel
        intro p hp
        have hpe : p < e := innerPts_lt_last h.x hhc e hhl p hp
        have hpmem : p ∈ h.x := innerPts_subset h.x p hp
        have hpu0 : p ≤ u0 := by
          rcases hin p hpmem with ⟨w, hw, hpw⟩ | hmem
          · simp at hw
            rw [← hw] at hpw
            exact hpw
          · rcases List.mem_cons.mp hmem with h1 | h1
            · exact le_of_eq h1
            · simp at h1
              rw [h1, hv] at hpe
              exact absurd hpe (lt_irrefl e)
        constructor
        · intro hlt
          exact absurd (lt_of_lt_of_le hlt hpu0) (lt_irrefl u0)
        · intro hlt
          exact absurd (lt_of_le_of_lt hu0t (lt_of_lt_of_le hlt hpu0)) (lt_irrefl u0)
      rw [show adjPairs (u0 :: [v]) = [(u0, v)] from rfl]
      rw [List.map_cons, List.map_cons, List.map_nil, List.map_nil]
      rw [show segEndAux [u0, v] [f.valueAt u0 + g.valueAt u0]
          [f.segEnd u0 v + g.segEnd u0 v] t t =
          (f.valueAt u0 + g.valueAt u0) +
            ((f.segEnd u0 v + g.segEnd u0 v) - (f.valueAt u0 + g.valueAt u0)) *
              (t - u0) / (v - u0) from rfl]
      rw [← hsel f hfc hfl hfin, ← hsel g hgc hgl hgin]
      rw [show (f.valueAt u0 : ℚ) = f.segEnd u0 u0 from rfl,
        show (g.valueAt u0 : ℚ) = g.segEnd u0 u0 from rfl]
      rw [show (f.segEnd u0 u0 + g.segEnd u0 u0) +
          ((f.segEnd u0 v + g.segEnd u0 v) - (f.segEnd u0 u0 + g.segEnd u0 u0)) *
            (t - u0) / (v - u0) =
          (f.segEnd u0 u0 + (f.segEnd u0 v - f.segEnd u0 u0) * (t - u0) / (v - u0)) +
          (g.segEnd u0 u0 + (g.segEnd u0 v - g.segEnd u0 u0) * (t - u0) / (v - u0))
          from by ring]
      rw [segEnd_chord f u0 u0 v t (ne_of_lt hu0v),
        segEnd_chord g u0 u0 v t (ne_of_lt hu0v)]
    | v :: w :: xs, _ =>
      have hu0v : u0 < v := (List.chain'_cons.mp hc).1
      rw [show adjPairs (u0 :: v :: w :: xs) = (u0, v) :: adjPairs (v :: w :: xs) from rfl]
      rw [List.map_cons, List.map_cons]
      rw [segEndAux]
      by_cases ht : t < v
      · rw [if_pos ht]
        have hsel : ∀ (h : PieceWiseLinFunc), h.x.Chain' (· < ·) →
            (∀ p ∈ h.x, (∃ z, (u0 :: v :: w :: xs).head? = some z ∧ p ≤ z) ∨
              p ∈ (u0 :: v :: w :: xs)) →
            h.segEnd u0 t = h.valueAt t := by
          intro h hhc hin
          apply segEndAux_congr_sel
          intro p hp
          have hpmem : p ∈ h.x := innerPts_subset h.x p hp
          constructor
          · intro hlt
            by_contra hnlt
            push_neg at hnlt
            have hpu0 : p ≤ u0 := by
              rcases hin p hpmem with ⟨z, hz, hpz⟩ | hmem
              · simp at hz
                rw [← hz] at hpz
                exact hpz
              · rcases List.mem_cons.mp hmem with h1 | h1
                · exact le_of_eq h1
                · have hvp : v ≤ p := head_le_of_sorted (List.chain'_cons.mp hc).2 rfl h1
                  have : v ≤ t := le_trans hvp hnlt
                  exact absurd (lt_of_le_of_lt this ht) (lt_irrefl v)
            exact absurd (lt_of_lt_of_le hlt hpu0) (lt_irrefl u0)
          · intro hlt
            exact lt_of_le_of_lt hu0t hlt
        rw [← hsel f hfc hfin, ← hsel g hgc hgin]
        rw [show (f.valueAt u0 : ℚ) = f.segEnd u0 u0 from rfl,
          show (g.valueAt u0 : ℚ) = g.segEnd u0 u0 from rfl]
        rw [show (f.segEnd u0 u0 + g.segEnd u0 u0) +
            ((f.segEnd u0 v + g.segEnd u0 v) - (f.segEnd u0 u0 + g.segEnd u0 u0)) *
              (t - u0) / (v - u0) =
            (f.segEnd u0 u0 + (f.segEnd u0 v - f.segEnd u0 u0) * (t - u0) / (v - u0)) +
            (g.segEnd u0 u0 + (g.segEnd u0 v - g.segEnd u0 u0) * (t - u0) / (v - u0))
            from by ring]
        rw [segEnd_chord f u0 u0 v t (ne_of_lt hu0v),
          segEnd_chord g u0 u0 v t (ne_of_lt hu0v)]
      · rw [if_neg ht]
        push_neg at ht
        apply ih t (List.chain'_cons.mp hc).2 (by simpa using hlast)
        · intro p hp
          rcases hfin p hp with ⟨z, hz, hpz⟩ | hmem
          · simp at hz
            exact Or.inl ⟨v, rfl, le_trans (hz ▸ hpz) (le_of_lt hu0v)⟩
          · rcases List.mem_cons.mp hmem with h1 | h1
            · exact Or.inl ⟨v, rfl, by rw [h1]; exact le_of_lt hu0v⟩
            · exact Or.inr h1
        · intro p hp
          rcases hgin p hp with ⟨z, hz, hpz⟩ | hmem
          · simp at hz
            exact Or.inl ⟨v, rfl, le_trans (hz ▸ hpz) (le_of_lt hu0v)⟩
          · rcases List.mem_cons.mp hmem with h1 | h1
            · exact Or.inl ⟨v, rfl, by rw [h1]; exact le_of_lt hu0v⟩
            · exact Or.inr h1
        · intro z hz
          simp at hz
          rw [← hz]
          exact ht
        · exact hte
        · simp

/-- The union grid of two grids spanning `[a, e]` also spans `[a, e]`. -/
theorem unionGrid_span_lists {xs ys : List ℚ} {a e : ℚ}
    (hxc : xs.Chain' (· < ·)) (hyc : ys.Chain' (· < ·))
    (hxh : xs.head? = some a) (hyh : ys.head? = some a)
    (hxl : xs.getLast? = some e) (hyl : ys.getLast? = some e) :
    (unionGrid xs ys).head? = some a ∧ (unionGrid xs ys).getLast? = some e := by
  constructor
  · apply head_eq_of_min (unionGrid_sorted _ _)
    · exact mem_unionGrid.mpr (Or.inl (mem_of_head?_eq hxh))
    · intro x hx
      rcases mem_unionGrid.mp hx with h | h
      · exact head_le_of_sorted hxc hxh h
      · exact head_le_of_sorted hyc hyh h
  · apply getLast_eq_of_max (unionGrid_sorted _ _)
    · exact mem_unionGrid.mpr (Or.inl (mem_of_getLast?_eq hxl))
    · intro x hx
      rcases mem_unionGrid.mp hx with h | h
      · exact le_getLast_of_sorted hxc hxl h
      · exact le_getLast_of_sorted hyc hyl h

/-- `add` preserves well-formedness over the shared interval. -/
theorem WF_add {f g : PieceWiseLinFunc} {a e : ℚ}
    (hf : f.WF a e) (hg : g.WF a e) : (f.add g).WF a e := by
  obtain ⟨hfc, hfh, hfl, _, _, hae⟩ := hf
  obtain ⟨hgc, hgh, hgl, _, _, _⟩ := hg
  obtain ⟨hh, hl⟩ := unionGrid_span_lists hfc hgc hfh hgh hfl hgl
  refine ⟨unionGrid_sorted _ _, hh, hl, ?_, ?_, hae⟩ <;>
  · simp [PieceWiseLinFunc.add, adjPairs_length]

/-- C2 core: the value of the sum profile at any time in the interval is
the sum of the two profiles' values. -/
theorem valueAt_add {f g : PieceWiseLinFunc} {a e : ℚ}
    (hf : f.WF a e) (hg : g.WF a e) (t : ℚ) (hat : a ≤ t) (hte : t ≤ e) :
    (f.add g).valueAt t = f.valueAt t + g.valueAt t := by
  obtain ⟨hfc, hfh, hfl, _, _, hae⟩ := hf
  obtain ⟨hgc, hgh, hgl, _, _, _⟩ := hg
  obtain ⟨hh, hl⟩ := unionGrid_span_lists hfc hgc hfh hgh hfl hgl
  have hlen : 2 ≤ (unionGrid f.x g.x).length :=
    two_le_length_of_head_ne_last hh hl (ne_of_lt hae)
  exact segEndAux_add_eval f g e hfc hgc hfl hgl (unionGrid f.x g.x) t
    (unionGrid_sorted _ _) hl
    (fun p hp => Or.inr (mem_unionGrid.mpr (Or.inl hp)))
    (fun p hp => Or.inr (mem_unionGrid.mpr (Or.inr hp)))
    (fun u0 hu0 => by rw [hh] at hu0; simp at hu0; rw [← hu0]; exact hat)
    hte hlen

/-- Scaling the value lists scales the evaluation. -/
theorem segEndAux_map_mul (c : ℚ) : ∀ (x y1 y2 : List ℚ) (s t : ℚ),
    segEndAux x (y1.map (fun y => c * y)) (y2.map (fun y => c * y)) s t =
      c * segEndAux x y1 y2 s t := by
  intro x
  induction x with
  | nil => intro y1 y2 s t; simp [segEndAux]
  | cons u tail ih =>
    intro y1 y2 s t
    match tail with
    | [] => simp [segEndAux]
    | [v] =>
      rcases y1 with _ | ⟨a, _ | ⟨a2, as⟩⟩ <;>
          rcases y2 with _ | ⟨b, _ | ⟨b2, bs⟩⟩ <;>
        (simp [segEndAux]; try ring)
    | v :: w :: xs =>
      rcases y1 with _ | ⟨a, as⟩
      · simp [segEndAux]
      · rcases y2 with _ | ⟨b, bs⟩
        · simp [segEndAux]
        · rw [List.map_cons, List.map_cons, segEndAux, segEndAux]
          by_cases h : s < v
          · rw [if_pos h, if_pos h]
            ring
          · rw [if_neg h, if_neg h]
            exact ih as bs s t

theorem valueAt_mul_scalar (f : PieceWiseLinFunc) (c t : ℚ) :
    (f.mul_scalar c).valueAt t = c * f.valueAt t :=
  segEndAux_map_mul c f.x f.y1 f.y2 t t

theorem WF_mul_scalar {f : PieceWiseLinFunc} {a e : ℚ} (hf : f.WF a e) (c : ℚ) :
    (f.mul_scalar c).WF a e := by
  obtain ⟨hfc, hfh, hfl, hy1, hy2, hae⟩ := hf
  exact ⟨hfc, hfh, hfl, by simp [PieceWiseLinFunc.mul_scalar, hy1],
    by simp [PieceWiseLinFunc.mul_scalar, hy2], hae⟩

/-- Folding `add` over a list of well-formed profiles sums their values
pointwise and stays well-formed. -/
theorem foldl_add_valueAt {a e : ℚ} : ∀ (ps : List PieceWiseLinFunc)
    (p0 : PieceWiseLinFunc), p0.WF a e → (∀ q ∈ ps, q.WF a e) →
    (ps.foldl PieceWiseLinFunc.add p0).WF a e ∧
    ∀ t, a ≤ t → t ≤ e →
      (ps.foldl PieceWiseLinFunc.add p0).valueAt t =
        p0.valueAt t + (ps.map (fun q => q.valueAt t)).sum := by
  intro ps
  induction ps with
  | nil => intro p0 h0 _; exact ⟨h0, fun t _ _ => by simp⟩
  | cons q rest ih =>
    intro p0 h0 hall
    have hq : q.WF a e := hall q (List.mem_cons_self _ _)
    have hrest : ∀ r ∈ rest, r.WF a e :=
      fun r hr => hall r (List.mem_cons_of_mem q hr)
    obtain ⟨hwf, hval⟩ := ih (p0.add q) (WF_add h0 hq) hrest
    refine ⟨hwf, fun t hat hte => ?_⟩
    rw [List.foldl_cons, hval t hat hte, valueAt_add h0 hq t hat hte,
      List.map_cons, List.sum_cons]
    ring

theorem WF_spike_distance_impl (st1 st2 : SpikeTrain)
    (h1 : st1.Valid) (h2 : st2.Valid)
    (hs : st1.t_start = st2.t_start) (he : st1.t_end = st2.t_end) :
    (spike_distance_impl st1.spikes st2.spikes st1.t_start st1.t_end).WF
      st1.t_start st1.t_end := by
  obtain ⟨hc, hh, hl⟩ := unionGrid_span h1 h2 hs he
  exact ⟨hc, hh, hl, by simp [spike_distance_impl, adjPairs_length],
    by simp [spike_distance_impl, adjPairs_length], h1.2.2.2⟩

theorem foldlM_add_ok (f : SpikeTrain → SpikeTrain → Except PySpikeError PieceWiseLinFunc)
    (g : SpikeTrain × SpikeTrain → PieceWiseLinFunc) :
    ∀ (ps : List (SpikeTrain × SpikeTrain)) (acc : PieceWiseLinFunc),
    (∀ q ∈ ps, f q.1 q.2 = .ok (g q)) →
    ps.foldlM (fun acc q => do
      let c ← f q.1 q.2
      return acc.add c) acc =
      .ok ((ps.map g).foldl PieceWiseLinFunc.add acc) := by
  intro ps
  induction ps with
  | nil => intro acc _; rfl
  | cons q rest ih =>
    intro acc hall
    rw [List.foldlM_cons, hall q (List.mem_cons_self _ _)]
    show rest.foldlM _ (acc.add (g q)) = _
    rw [ih (acc.add (g q)) (fun r hr => hall r (List.mem_cons_of_mem q hr))]
    rfl

theorem runPairs_ok (f : SpikeTrain → SpikeTrain → Except PySpikeError PieceWiseLinFunc)
    (g : SpikeTrain × SpikeTrain → PieceWiseLinFunc)
    (p : SpikeTrain × SpikeTrain) (ps : List (SpikeTrain × SpikeTrain))
    (hall : ∀ q ∈ p :: ps, f q.1 q.2 = .ok (g q)) :
    runPairs f (p :: ps) = .ok ((ps.map g).foldl PieceWiseLinFunc.add (g p)) := by
  rw [runPairs]
  rw [show (do
      let first ← f p.1 p.2
      ps.foldlM (fun acc q => do
        let c ← f q.1 q.2
        return acc.add c) first : Except PySpikeError PieceWiseLinFunc) =
    (f p.1 p.2) >>= (fun first => ps.foldlM (fun acc q => do
      let c ← f q.1 q.2
      return acc.add c) first) from rfl]
  rw [hall p (List.mem_cons_self _ _)]
  show ps.foldlM _ (g p) = _
  exact foldlM_add_ok f g ps (g p) (fun r hr => hall r (List.mem_cons_of_mem p hr))

theorem two_mul_allPairs_length {α : Type} : ∀ l : List α,
    2 * (allPairs l).length = l.length * (l.length - 1)
  | [] => rfl
  | a :: rest => by
    rw [allPairs, List.length_append, List.length_map, List.length_cons]
    have ih := two_mul_allPairs_length rest
    cases hrl : rest.length with
    | zero => rw [hrl] at ih; omega
    | succ k =>
      rw [hrl] at ih
      simp only [Nat.add_sub_cancel] at ih ⊢
      have h2 : (k + 1 + 1) * (k + 1) = 2 * (k + 1) + (k + 1) * k := by ring
      omega

theorem allPairs_length_eq {α : Type} (l : List α) :
    (allPairs l).length = l.length * (l.length - 1) / 2 := by
  rw [← two_mul_allPairs_length l, Nat.mul_div_cancel_left _ (by norm_num)]

theorem mul_scalar_one (f : PieceWiseLinFunc) : f.mul_scalar 1 = f := by
  unfold PieceWiseLinFunc.mul_scalar
  simp only [one_mul]
  rcases f with ⟨x, y1, y2⟩
  simp

/-- C2: the multivariate spike profile is, pointwise, the sum of all
pairwise profiles scaled by one over the number of unordered pairs; over
exactly two trains it is the pairwise profile itself. -/
theorem spike_profile_multi_is_scaled_pair_sum :
    (∀ (trains : List SpikeTrain) (a e : ℚ),
      (∀ st ∈ trains, st.Valid ∧ st.t_start = a ∧ st.t_end = e) →
      2 ≤ trains.length →
      ∃ p, spike_profile_multi trains none = .ok p ∧
        (allPairs trains).length = trains.length * (trains.length - 1) / 2 ∧
        ∀ t, a ≤ t → t ≤ e →
          p.valueAt t = ((allPairs trains).map (fun q =>
            (spike_distance_impl q.1.spikes q.2.spikes a e).valueAt t)).sum /
            ((allPairs trains).length : ℚ)) ∧
    (∀ s t : SpikeTrain, spike_profile_multi [s, t] none = spike_profile s t) := by
  constructor
  · intro trains a e hall hk
    set n := trains.length with hn
    -- the generic combinator's selected pair list is exactly allPairs trains
    have hpairs : (allPairs (List.range n)).map (fun q =>
        (trains.getD q.1 default, trains.getD q.2 default)) = allPairs trains := by
      rw [show allPairs trains =
          (allPairs (List.range n)).map (fun p => (trains.getD p.1 default, trains.getD p.2 default)) from by
        have h := allPairs_map (fun i => trains.getD i default) (List.range n)
        rw [← self_eq_range_map_getD default trains] at h
        exact h]
    have hg : ∀ q ∈ allPairs trains, spike_profile q.1 q.2 =
        .ok (spike_distance_impl q.1.spikes q.2.spikes a e) := by
      intro q hq
      obtain ⟨h1, h2⟩ := mem_allPairs hq
      obtain ⟨hv1, hs1, he1⟩ := hall q.1 h1
      obtain ⟨hv2, hs2, he2⟩ := hall q.2 h2
      unfold spike_profile
      rw [if_pos (hs1.trans hs2.symm), if_pos (he1.trans he2.symm), hs1, he1]
    have hwf : ∀ q ∈ allPairs trains,
        (spike_distance_impl q.1.spikes q.2.spikes a e).WF a e := by
      intro q hq
      obtain ⟨h1, h2⟩ := mem_allPairs hq
      obtain ⟨hv1, hs1, he1⟩ := hall q.1 h1
      obtain ⟨hv2, hs2, he2⟩ := hall q.2 h2
      have := WF_spike_distance_impl q.1 q.2 hv1 hv2 (hs1.trans hs2.symm)
        (he1.trans he2.symm)
      rw [hs1, he1] at this
      exact this
    have hlenpos : 0 < (allPairs trains).length := by
      have h2l := two_mul_allPairs_length trains
      rw [← hn] at h2l
      have : 2 * 1 ≤ n * (n - 1) := Nat.mul_le_mul hk (by omega)
      omega
    obtain ⟨q0, qs, hq0⟩ := List.exists_cons_of_ne_nil
      (List.ne_nil_of_length_pos hlenpos)
    have hval : (List.range n).all (fun i => decide (i < trains.length)) = true := by
      rw [List.all_eq_true]
      intro i hi
      simpa using List.mem_range.mp hi
    have hgen : _generic_profile_multi trains spike_profile none =
        .ok (((qs.map (fun q => spike_distance_impl q.1.spikes q.2.spikes a e)).foldl
            PieceWiseLinFunc.add
            (spike_distance_impl q0.1.spikes q0.2.spikes a e)),
          (allPairs trains).length) := by
      unfold _generic_profile_multi
      rw [if_pos hval, hpairs, hq0]
      rw [runPairs_ok spike_profile
        (fun q => spike_distance_impl q.1.spikes q.2.spikes a e) q0 qs
        (fun q hq => hg q (hq0 ▸ hq))]
      have hlen2 : (allPairs (List.range n)).length = (allPairs trains).length := by
        have := congrArg List.length hpairs
        simpa using this
      simp [Except.map, hlen2, hq0]
    refine ⟨((qs.map (fun q => spike_distance_impl q.1.spikes q.2.spikes a e)).foldl
        PieceWiseLinFunc.add
        (spike_distance_impl q0.1.spikes q0.2.spikes a e)).mul_scalar
        (1 / ((allPairs trains).length : ℚ)), ?_, allPairs_length_eq trains, ?_⟩
    · unfold spike_profile_multi
      rw [show (do
          let r ← _generic_profile_multi trains spike_profile none
          return r.1.mul_scalar (1 / (r.2 : ℚ)) : Except PySpikeError PieceWiseLinFunc) =
        (_generic_profile_multi trains spike_profile none) >>=
          (fun r => pure (r.1.mul_scalar (1 / (r.2 : ℚ)))) from rfl]
      rw [hgen]
      rfl
    · intro t hat hte
      obtain ⟨hwf0, hvfold⟩ := foldl_add_valueAt
        (qs.map (fun q => spike_distance_impl q.1.spikes q.2.spikes a e))
        (spike_distance_impl q0.1.spikes q0.2.spikes a e)
        (hwf q0 (hq0 ▸ List.mem_cons_self _ _))
        (by
          intro r hr
          rcases List.mem_map.mp hr with ⟨q, hq, hrq⟩
          rw [← hrq]
          exact hwf q (hq0 ▸ List.mem_cons_of_mem q0 hq))
      rw [valueAt_mul_scalar, hvfold t hat hte, hq0]
      rw [List.map_cons, List.sum_cons, List.map_map]
      rw [one_div, inv_mul_eq_div]
      rfl
  · intro s t
    unfold spike_profile_multi _generic_profile_multi
    rw [show (List.range [s, t].length) = [0, 1] from rfl]
    rw [if_pos (by rfl)]
    rw [show (allPairs [0, 1]).map (fun q =>
        ([s, t].getD q.1 default, [s, t].getD q.2 default)) = [(s, t)] from rfl]
    rw [show (allPairs [(0 : ℕ), 1]).length = 1 from rfl]
    cases hst : spike_profile s t with
    | error err =>
      rw [show runPairs spike_profile [(s, t)] = spike_profile s t from by
        rw [runPairs]
        rw [show (do
            let first ← spike_profile s t
            ([] : List (SpikeTrain × SpikeTrain)).foldlM (fun acc q => do
              let c ← spike_profile q.1 q.2
              return acc.add c) first : Except PySpikeError PieceWiseLinFunc) =
          (spike_profile s t) >>= (fun first => pure first) from rfl]
        rw [hst]
        rfl]
      rw [hst]
      rfl
    | ok p =>
      rw [show runPairs spike_profile [(s, t)] = spike_profile s t from by
        rw [runPairs]
        rw [show (do
            let first ← spike_profile s t
            ([] : List (SpikeTrain × SpikeTrain)).foldlM (fun acc q => do
              let c ← spike_profile q.1 q.2
              return acc.add c) first : Except PySpikeError PieceWiseLinFunc) =
          (spike_profile s t) >>= (fun first => pure first) from rfl]
        rw [hst]
        rfl]
      rw [hst]
      show Except.ok ((p.mul_scalar (1 / ((1 : ℕ) : ℚ)))) = Except.ok p
      rw [show ((1 : ℕ) : ℚ) = 1 from by norm_num]
      rw [show (1 / (1 : ℚ)) = 1 from by norm_num]
      rw [mul_scalar_one]

/-- C2 witness at three fixture trains. -/
theorem spike_profile_multi_is_scaled_pair_sum_witness :
    ∃ p, spike_profile_multi [trainA, trainB, trainC] none = .ok p ∧
      (allPairs [trainA, trainB, trainC]).length =
        [trainA, trainB, trainC].length * ([trainA, trainB, trainC].length - 1) / 2 ∧
      ∀ t, (0 : ℚ) ≤ t → t ≤ 1 →
        p.valueAt t = ((allPairs [trainA, trainB, trainC]).map (fun q =>
          (spike_distance_impl q.1.spikes q.2.spikes 0 1).valueAt t)).sum /
          ((allPairs [trainA, trainB, trainC]).length : ℚ) :=
  spike_profile_multi_is_scaled_pair_sum.1 [trainA, trainB, trainC] 0 1
    (by
      intro st hst
      simp only [List.mem_cons, List.not_mem_nil, or_false] at hst
      rcases hst with rfl | rfl | rfl
      · exact ⟨trainA_valid, rfl, rfl⟩
      · exact ⟨trainB_valid, rfl, rfl⟩
      · exact ⟨trainC_valid, rfl, rfl⟩)
    (by simp)
